import Mathlib

/-!
Verification development for the portfolio time-series analytics engine.

The embedding conventions:
* Calendar strings are digit-encoded as naturals: a date "YYYY-MM-DD" becomes
  the natural YYYYMMDD, a month "YYYY-MM" becomes YYYYMM, a year "YYYY" becomes
  YYYY.  For these fixed-width digit strings, lexicographic string order
  coincides exactly with the numeric order of the encoding, the substring
  `slice(0,7)` of a date is division by 100, and `slice(0,4)` of a month is
  division by 100.
* Numeric price fields are rationals, modelled after CSV parsing (the parse
  itself is at the I/O boundary).
* Exceptions (`throw` / `try`-`catch`) are modelled with `Except`; the loop
  that values positions one by one and aborts on the first failure is the
  sequential traversal `exceptMap`.
* JavaScript truthiness on numbers treats 0 as false; the guards below test
  `= 0` accordingly.  `Map` objects keyed by month or year are modelled as
  association lists in insertion order, with in-place update.
-/

namespace Portfolio

/-- Daily price record of one asset; only the fields the engine reads
(`Date`, `Close`) are carried. -/
structure DailyRow where
  date : ℕ
  close : ℚ
deriving DecidableEq

/-- Errors thrown by the calculation loops: a position with an empty
field, or a purchase date after all available history. -/
inductive CalcError where
  | missingField : CalcError
  | noTradingDay : ℕ → CalcError
deriving DecidableEq

/-- Result of resolving the purchase-day close for one asset. -/
structure HistResult where
  dateUsed : ℕ
  close : ℚ
  allRows : List DailyRow
deriving DecidableEq

/-- Embeds the pure part of `fetchHistoricalCloseOnOrAfter`: find the first
row with `Date >= ymd`, throw when none exists. -/
def fetchHistoricalCloseOnOrAfter (rows : List DailyRow) (ymd : ℕ) :
    Except CalcError HistResult :=
  match rows.find? (fun r => decide (ymd ≤ r.date)) with
  | some target => .ok ⟨target.date, target.close, rows⟩
  | none => .error (.noTradingDay ymd)

/-- Currency of an entered position. -/
inductive Currency where
  | usd : Currency
  | eur : Currency
deriving DecidableEq

/-- One user-entered position row. -/
structure Row where
  id : ℕ
  ticker : String
  amount : ℚ
  currency : Currency
  date : ℕ
deriving DecidableEq

/-- Embeds `normalizeTicker`. -/
def normalizeTicker (t : String) : String :=
  let sym := t.trim.toUpper
  if sym.contains '.' then sym else sym ++ ".US"

/-- Embeds the guard `!r.ticker || !r.amount || !r.date` (JS truthiness:
empty string and zero are false). -/
def missingFields (r : Row) : Bool :=
  r.ticker = "" || r.amount = 0 || r.date = 0

/-- Embeds the amount conversion
`r.currency === "EUR" ? (eurusdNow ? amount * eurusdNow : amount) : amount`;
a present-but-zero rate is falsy in JS, hence also falls back. -/
def amountUSDof (currency : Currency) (amount : ℚ) (eurusdNow : Option ℚ) : ℚ :=
  match currency with
  | .eur =>
    match eurusdNow with
    | some fxr => if fxr = 0 then amount else amount * fxr
    | none => amount
  | .usd => amount

/-- Embeds `eurusd ?? (useEur ? fx : null)` (nullish coalescing: only a
missing value triggers the fallback). -/
def eurusdNowOf (eurusd : Option ℚ) (useEur : Bool) (fx : Option ℚ) : Option ℚ :=
  match eurusd with
  | some e => some e
  | none => if useEur then fx else none

/-- Per-position valuation record pushed into `results`. -/
structure PositionResult where
  id : ℕ
  symbol : String
  purchaseDateUsed : ℕ
  purchaseClose : ℚ
  amountInvested : ℚ
  amountOriginal : ℚ
  currency : Currency
  shares : ℚ
  latestPrice : ℚ
  currentValueUSD : ℚ

/-- Embeds the body of the `calculate` loop for one row: the missing-field
guard, the purchase-close lookup, the amount conversion, the unconditional
division `shares = amountUSD / hist.close`, and the current-price fallback
to the last historical row when the live quote is missing or non-finite
(`quoteMap` returns `none` in both of those cases). -/
def valueOne (quoteMap : String → Option ℚ) (eurusdNow : Option ℚ)
    (histories : String → List DailyRow) (r : Row) :
    Except CalcError PositionResult :=
  let symbol := normalizeTicker r.ticker
  if missingFields r then .error .missingField
  else
    match fetchHistoricalCloseOnOrAfter (histories symbol) r.date with
    | .error e => .error e
    | .ok hist =>
      let amountUSD := amountUSDof r.currency r.amount eurusdNow
      let shares := amountUSD / hist.close
      let curPrice : ℚ :=
        match quoteMap symbol.toUpper with
        | some q => q
        | none =>
          match hist.allRows.getLast? with
          | some lastRow => lastRow.close
          | none => 0
      .ok ⟨r.id, symbol, hist.dateUsed, hist.close, amountUSD, r.amount,
           r.currency, shares, curPrice, shares * curPrice⟩

/-- Sequential traversal of a `for`-loop whose body can throw: the first
failure aborts the whole loop. -/
def exceptMap (f : α → Except CalcError β) : List α → Except CalcError (List β)
  | [] => .ok []
  | a :: rest =>
    match f a with
    | .error e => .error e
    | .ok b =>
      match exceptMap f rest with
      | .error e => .error e
      | .ok bs => .ok (b :: bs)

/-- The component state written by `calculate`: `setCalc` plus `setError`. -/
structure CalcState where
  results : List PositionResult
  error : Option CalcError
deriving Inhabited

/-- Embeds `calculate`: value every row in order; on success store all
results, on the first thrown error clear the results and store the error. -/
def calculate (quoteMap : String → Option ℚ) (eurusd : Option ℚ) (useEur : Bool)
    (fx : Option ℚ) (histories : String → List DailyRow) (rows : List Row) :
    CalcState :=
  match exceptMap (valueOne quoteMap (eurusdNowOf eurusd useEur fx) histories) rows with
  | .ok rs => ⟨rs, none⟩
  | .error e => ⟨[], some e⟩

/-- One `{month, close}` pair produced by `groupByMonthEnd`. -/
structure MonthClose where
  month : ℕ
  close : ℚ
deriving DecidableEq

/-- Association-list model of the `byMonth` map: setting an existing key
replaces its value in place, a new key is appended. -/
def insertMonthEnd (acc : List (ℕ × DailyRow)) (m : ℕ) (r : DailyRow) :
    List (ℕ × DailyRow) :=
  if acc.any (fun q => q.1 = m) then
    acc.map (fun q => if q.1 = m then (m, r) else q)
  else acc ++ [(m, r)]

/-- Embeds `groupByMonthEnd`: group by month (`Date` divided by 100 here,
`slice(0,7)` in the source), keep the last row of each month, skip rows
strictly before the optional start date. -/
def groupByMonthEnd (rows : List DailyRow) (startDateYmd : Option ℕ) :
    List MonthClose :=
  (rows.foldl
      (fun acc r =>
        let skip : Bool :=
          match startDateYmd with
          | some s => decide (r.date < s)
          | none => false
        if skip then acc else insertMonthEnd acc (r.date / 100) r)
      []).map (fun q => ⟨q.1, q.2.close⟩)

/-- Per-symbol data collected by the first loop of `computeMonthlyDrops`. -/
structure PerSymbol where
  symbol : String
  shares : ℚ
  monthSeries : List MonthClose

/-- Embeds the body of the `computeMonthlyDrops` loop for one row (the FX
state `fx` plays the role of `eurusdNow` there). -/
def perSymbolOne (fx : Option ℚ) (histories : String → List DailyRow) (r : Row) :
    Except CalcError PerSymbol :=
  let symbol := normalizeTicker r.ticker
  if missingFields r then .error .missingField
  else
    match fetchHistoricalCloseOnOrAfter (histories symbol) r.date with
    | .error e => .error e
    | .ok hist =>
      let amountUSD := amountUSDof r.currency r.amount fx
      let shares := amountUSD / hist.close
      .ok ⟨symbol, shares, groupByMonthEnd hist.allRows (some r.date)⟩

/-- The union of months appearing in any position's series, sorted
ascending (the `Set` plus `sort()` of the source; deduplication before
sorting makes the insertion order irrelevant, and `sort` is modelled by a
stable insertion sort). -/
def monthsSorted (ps : List PerSymbol) : List ℕ :=
  List.insertionSort (fun a b => a ≤ b)
    ((ps.foldl (fun acc s => acc ++ s.monthSeries.map (fun x => x.month)) []).dedup)

/-- A month of the aggregated portfolio series before the change column. -/
structure MonthlyVal where
  month : ℕ
  valueUSD : ℚ
deriving DecidableEq

/-- Embeds the inner sum: positions with a record for the month contribute
`shares * close`, the others contribute nothing. -/
def monthValue (ps : List PerSymbol) (m : ℕ) : ℚ :=
  ps.foldl
    (fun v s =>
      match s.monthSeries.find? (fun x => decide (x.month = m)) with
      | some mc => v + s.shares * mc.close
      | none => v)
    0

/-- Embeds `portfolioSeries`: one summed value per sorted month, keeping
only months with value `> 0`. -/
def portfolioSeries (ps : List PerSymbol) : List MonthlyVal :=
  ((monthsSorted ps).map (fun m => MonthlyVal.mk m (monthValue ps m))).filter
    (fun p => decide (0 < p.valueUSD))

/-- A point of the monthly series with its month-over-month change. -/
structure MonthlyPoint where
  month : ℕ
  valueUSD : ℚ
  mom : Option ℚ
deriving DecidableEq

/-- Embeds `prev > 0 ? p.valueUSD / prev - 1 : null`. -/
def momOf (prev p : MonthlyVal) : Option ℚ :=
  if 0 < prev.valueUSD then some (p.valueUSD / prev.valueUSD - 1) else none

/-- Helper of `withMoM`: every later point takes its change from the
immediately preceding point of the series. -/
def withMoMTail (prev : MonthlyVal) : List MonthlyVal → List MonthlyPoint
  | [] => []
  | p :: rest => ⟨p.month, p.valueUSD, momOf prev p⟩ :: withMoMTail p rest

/-- Embeds `withMoM`: index 0 gets `mom = null`, index `i > 0` gets the
change computed from `portfolioSeries[i-1]`. -/
def withMoM : List MonthlyVal → List MonthlyPoint
  | [] => []
  | p :: rest => ⟨p.month, p.valueUSD, none⟩ :: withMoMTail p rest

/-- Embeds the drop filter: threshold `-Math.abs(pct)/100`, keep points
whose change is present and at or below it. -/
def dropsOf (thresholdPct : ℚ) (l : List MonthlyPoint) : List MonthlyPoint :=
  l.filter
    (fun p =>
      match p.mom with
      | some m => decide (m ≤ -|thresholdPct| / 100)
      | none => false)

/-- The component state written by `computeMonthlyDrops`. -/
structure DropsState where
  monthlySeries : List MonthlyPoint
  bigDrops : List MonthlyPoint
  error : Option CalcError

/-- Embeds `computeMonthlyDrops` end to end: build the per-symbol data (a
throwing loop), aggregate, filter, and on any error clear both series. -/
def computeMonthlyDrops (fx : Option ℚ) (histories : String → List DailyRow)
    (thresholdPct : ℚ) (rows : List Row) : DropsState :=
  match exceptMap (perSymbolOne fx histories) rows with
  | .error e => ⟨[], [], some e⟩
  | .ok ps =>
    let series := withMoM (portfolioSeries ps)
    ⟨series, dropsOf thresholdPct series, none⟩

/-- One output row of the annual-extremes table. -/
structure YearEntry where
  year : ℕ
  minUSD : ℚ
  maxUSD : ℚ
  minMonth : ℕ
  maxMonth : ℕ
  minEUR : Option ℚ
  maxEUR : Option ℚ
deriving DecidableEq

/-- Embeds `rate ? v / rate : null` (a zero rate is falsy). -/
def eurOf (rate : Option ℚ) (v : ℚ) : Option ℚ :=
  match rate with
  | some r => if r = 0 then none else some (v / r)
  | none => none

/-- The year of a monthly point (`month.slice(0,4)` in the source). -/
def yearOf (p : MonthlyPoint) : ℕ := p.month / 100

/-- First point of a year initialises both extremes. -/
def initEntry (rate : Option ℚ) (year : ℕ) (p : MonthlyPoint) : YearEntry :=
  ⟨year, p.valueUSD, p.valueUSD, p.month, p.month,
   eurOf rate p.valueUSD, eurOf rate p.valueUSD⟩

/-- A later point of the same year updates the extremes only on a strict
improvement (`<` for the minimum, `>` for the maximum): ties keep the
first-seen month.  The EUR field keeps its old value when the rate is
falsy, as in the source. -/
def stepEntry (rate : Option ℚ) (c : YearEntry) (p : MonthlyPoint) : YearEntry :=
  let c1 :=
    if p.valueUSD < c.minUSD then
      { c with
        minUSD := p.valueUSD
        minMonth := p.month
        minEUR :=
          match eurOf rate p.valueUSD with
          | some e => some e
          | none => c.minEUR }
    else c
  if p.valueUSD > c1.maxUSD then
    { c1 with
      maxUSD := p.valueUSD
      maxMonth := p.month
      maxEUR :=
        match eurOf rate p.valueUSD with
        | some e => some e
        | none => c1.maxEUR }
  else c1

/-- One step of the scan over the series: update the entry of the point's
year in place, or append a fresh entry for a new year. -/
def yearStep (rate : Option ℚ) (acc : List YearEntry) (p : MonthlyPoint) :
    List YearEntry :=
  let y := yearOf p
  if acc.any (fun c => c.year = y) then
    acc.map (fun c => if c.year = y then stepEntry rate c p else c)
  else acc ++ [initEntry rate y p]

/-- Embeds `yearExtremes`: scan the series in order building the per-year
map, then sort the entries ascending by year (`sort` with the year
comparator, modelled by a stable insertion sort). -/
def yearExtremes (series : List MonthlyPoint) (rate : Option ℚ) : List YearEntry :=
  if series = [] then []
  else List.insertionSort (fun a b => a.year ≤ b.year) (series.foldl (yearStep rate) [])

/-- One entry of the static crisis catalogue. -/
structure MarketEvent where
  id : String
  name : String
  startMonth : ℕ
  endMonth : ℕ

/-- Embeds `MARKET_EVENTS` (months digit-encoded). -/
def MARKET_EVENTS : List MarketEvent :=
  [⟨"dotcom", "Bolha dot-com", 200003, 200210⟩,
   ⟨"gfc", "Crise financeira 2008", 200710, 200903⟩,
   ⟨"covid", "Crash COVID-19", 202002, 202004⟩,
   ⟨"inflation2022", "Bear market inflação 2022", 202111, 202210⟩]

/-- Embeds `monthsBetween` on digit-encoded months:
`(yearB - yearA) * 12 + (monthB - monthA)` over the integers. -/
def monthsBetween (a b : ℕ) : ℤ :=
  ((b / 100 : ℕ) - (a / 100 : ℕ) : ℤ) * 12 + ((b % 100 : ℕ) - (a % 100 : ℕ) : ℤ)

/-- State of the single-pass drawdown scan. -/
structure DDState where
  peak : ℚ
  peakMonth : ℕ
  troughValue : ℚ
  troughMonth : ℕ
  worstDD : ℚ
deriving DecidableEq

/-- Embeds one iteration of the drawdown loop: raise the running peak on a
strictly larger value, then, when the peak is positive, record a strictly
worse drawdown together with its point as the new trough. -/
def ddStep (st : DDState) (p : MonthlyPoint) : DDState :=
  let st1 :=
    if p.valueUSD > st.peak then
      { st with peak := p.valueUSD, peakMonth := p.month }
    else st
  if st1.peak > 0 then
    let dd := p.valueUSD / st1.peak - 1
    if dd < st1.worstDD then
      { st1 with worstDD := dd, troughValue := p.valueUSD, troughMonth := p.month }
    else st1
  else st1

/-- Initial scan state, seeded from the first in-range point. -/
def ddInit (h0 : MonthlyPoint) : DDState :=
  ⟨h0.valueUSD, h0.month, h0.valueUSD, h0.month, 0⟩

/-- Model of JavaScript `findIndex` (with `none` for "not found"). -/
def findIndex (p : α → Bool) : List α → Option ℕ
  | [] => none
  | a :: l => if p a then some 0 else (findIndex p l).map (fun i => i + 1)

/-- Derived performance row for one crisis event. -/
structure MarketEventPerf where
  id : String
  name : String
  startMonth : ℕ
  endMonth : ℕ
  startValue : Option ℚ
  endValue : Option ℚ
  absChange : Option ℚ
  pctChange : Option ℚ
  maxDrawdown : Option ℚ
  troughMonth : Option ℕ
  recoveryMonth : Option ℕ
  monthsToRecoveryFromStart : Option ℤ
  monthsToRecoveryFromTrough : Option ℤ

/-- All-absent row returned when the event window holds no data. -/
def emptyPerf (ev : MarketEvent) : MarketEventPerf :=
  ⟨ev.id, ev.name, ev.startMonth, ev.endMonth,
   none, none, none, none, none, none, none, none, none⟩

/-- The in-range filter `startMonth <= month <= endMonth`. -/
def inRangeOf (series : List MonthlyPoint) (ev : MarketEvent) : List MonthlyPoint :=
  series.filter (fun p => decide (ev.startMonth ≤ p.month) && decide (p.month ≤ ev.endMonth))

/-- Embeds the non-empty branch of the event computation: start and end
values, percentage change, the drawdown scan, and the recovery search over
the full series starting just past the trough's index, comparing against
the final running peak of the scan. -/
def perfNonempty (ev : MarketEvent) (series : List MonthlyPoint)
    (h0 : MonthlyPoint) (t : List MonthlyPoint) : MarketEventPerf :=
  let startValue := h0.valueUSD
  let endValue := ((h0 :: t).getLast (List.cons_ne_nil h0 t)).valueUSD
  let absChange := endValue - startValue
  let pctChange : Option ℚ :=
    if startValue > 0 then some (absChange / startValue) else none
  let st := (h0 :: t).foldl ddStep (ddInit h0)
  let recoveryMonth : Option ℕ :=
    match findIndex (fun m => decide (m.month = st.troughMonth)) series with
    | some i =>
      ((series.drop (i + 1)).find? (fun q => decide (st.peak ≤ q.valueUSD))).map
        (fun q => q.month)
    | none => none
  ⟨ev.id, ev.name, ev.startMonth, ev.endMonth,
   some startValue, some endValue, some absChange, pctChange,
   some st.worstDD, some st.troughMonth, recoveryMonth,
   recoveryMonth.map (fun rm => monthsBetween ev.startMonth rm),
   recoveryMonth.map (fun rm => monthsBetween st.troughMonth rm)⟩

/-- Embeds the per-event branch of `eventPerformances`. -/
def perfForEvent (series : List MonthlyPoint) (ev : MarketEvent) : MarketEventPerf :=
  match inRangeOf series ev with
  | [] => emptyPerf ev
  | h0 :: t => perfNonempty ev series h0 t

/-- Embeds `eventPerformances`. -/
def eventPerformances (series : List MonthlyPoint) : List MarketEventPerf :=
  if series = [] then [] else MARKET_EVENTS.map (perfForEvent series)

/-!
Helper lemmas shared by several claims.
-/

theorem find?_split {α : Type} {p : α → Bool} {l : List α} {a : α}
    (h : l.find? p = some a) :
    ∃ l₁ l₂, l = l₁ ++ a :: l₂ ∧ p a = true ∧ ∀ x ∈ l₁, p x = false := by
  induction l with
  | nil => simp [List.find?] at h
  | cons b t ih =>
    rw [List.find?_cons] at h
    cases hb : p b with
    | true =>
      rw [hb] at h
      simp at h
      subst h
      exact ⟨[], t, rfl, hb, by simp⟩
    | false =>
      rw [hb] at h
      simp at h
      obtain ⟨l₁, l₂, hsplit, hpa, hall⟩ := ih h
      refine ⟨b :: l₁, l₂, by rw [hsplit]; rfl, hpa, ?_⟩
      intro x hx
      rcases List.mem_cons.mp hx with hx | hx
      · exact hx ▸ hb
      · exact hall x hx

theorem findIndex_split {α : Type} {p : α → Bool} {l : List α} {i : ℕ}
    (h : findIndex p l = some i) :
    ∃ l₁ a l₂, l = l₁ ++ a :: l₂ ∧ l₁.length = i ∧ p a = true ∧
      ∀ x ∈ l₁, p x = false := by
  induction l generalizing i with
  | nil => simp [findIndex] at h
  | cons b t ih =>
    rw [findIndex] at h
    cases hb : p b with
    | true =>
      rw [hb] at h
      simp at h
      exact ⟨[], b, t, rfl, by simp [h], hb, by simp⟩
    | false =>
      rw [hb] at h
      simp at h
      obtain ⟨j, hj, hji⟩ := h
      obtain ⟨l₁, a, l₂, hsplit, hlen, hpa, hall⟩ := ih hj
      refine ⟨b :: l₁, a, l₂, by rw [hsplit]; rfl, by simp [hlen, hji], hpa, ?_⟩
      intro x hx
      rcases List.mem_cons.mp hx with hx | hx
      · exact hx ▸ hb
      · exact hall x hx

theorem findIndex_isSome_of_mem {α : Type} {p : α → Bool} {l : List α} {a : α}
    (hmem : a ∈ l) (hpa : p a = true) : ∃ i, findIndex p l = some i := by
  induction l with
  | nil => cases hmem
  | cons b t ih =>
    by_cases hb : p b = true
    · exact ⟨0, by simp [findIndex, hb]⟩
    · rcases List.mem_cons.mp hmem with rfl | hmem2
      · exact absurd hpa hb
      · obtain ⟨i, hi⟩ := ih hmem2
        exact ⟨i + 1, by simp [findIndex, Bool.of_not_eq_true hb, hi]⟩

theorem drop_split {α : Type} (l₁ : List α) (a : α) (l₂ : List α) :
    (l₁ ++ a :: l₂).drop (l₁.length + 1) = l₂ := by
  induction l₁ with
  | nil => simp
  | cons b t ih => simp [ih]

theorem exceptMap_error_of_mem {α β : Type} (f : α → Except CalcError β)
    (rows : List α) (r : α) (e : CalcError) (hmem : r ∈ rows)
    (hf : f r = .error e) : ∃ e2, exceptMap f rows = .error e2 := by
  induction rows with
  | nil => cases hmem
  | cons a t ih =>
    rcases List.mem_cons.mp hmem with rfl | hmem2
    · exact ⟨e, by simp [exceptMap, hf]⟩
    · cases ha : f a with
      | error e3 => exact ⟨e3, by simp [exceptMap, ha]⟩
      | ok b =>
        obtain ⟨e2, h2⟩ := ih hmem2
        exact ⟨e2, by simp [exceptMap, ha, h2]⟩

/-!
Claim theorems.
-/

/-- Claim C10: for every monthly series and every numeric threshold value
`t` (including negative or out-of-range values), the drop list computed
with threshold `t` equals the drop list computed with `|t|`: the filter
compares the change against `-|t|/100`, so the detector's output is
invariant under the sign of the threshold. -/
theorem dropsOf_sign_invariant (l : List MonthlyPoint) (t : ℚ) :
    dropsOf t l = dropsOf |t| l := by
  simp [dropsOf, abs_abs]

/-- Claim C5: for every monthly series and positive threshold `t₁`, the
Drop Detector output is exactly the order-preserving subsequence (a
sublist, with membership characterised pointwise) of points whose change
is defined and at most `-t₁/100`; and for positive thresholds `t₁ ≤ t₂`
the output at `t₂` is never larger than the output at `t₁`. -/
theorem dropsOf_spec (l : List MonthlyPoint) (t₁ t₂ : ℚ) (h1 : 0 < t₁)
    (h12 : t₁ ≤ t₂) :
    (∀ p, p ∈ dropsOf t₁ l ↔
      p ∈ l ∧ ∃ m, p.mom = some m ∧ m ≤ -t₁ / 100) ∧
    (dropsOf t₁ l).Sublist l ∧
    (dropsOf t₂ l).length ≤ (dropsOf t₁ l).length := by
  have habs : |t₁| = t₁ := abs_of_pos h1
  refine ⟨?_, List.filter_sublist l, ?_⟩
  · intro p
    rw [dropsOf, List.mem_filter]
    constructor
    · rintro ⟨hp, hpred⟩
      refine ⟨hp, ?_⟩
      cases hm : p.mom with
      | none => rw [hm] at hpred; cases hpred
      | some m =>
        rw [hm] at hpred
        exact ⟨m, rfl, by rw [← habs]; exact of_decide_eq_true hpred⟩
    · rintro ⟨hp, m, hm, hle⟩
      refine ⟨hp, ?_⟩
      rw [hm]
      exact decide_eq_true_eq.mpr (by rw [habs]; exact hle)
  · apply List.Sublist.length_le
    apply List.monotone_filter_right
    intro p hp
    cases hm : p.mom with
    | none => rw [hm] at hp; cases hp
    | some m =>
      rw [hm] at hp
      have hp2 : decide (m ≤ -|t₂| / 100) = true := hp
      show decide (m ≤ -|t₁| / 100) = true
      have h2 : (0:ℚ) < t₂ := lt_of_lt_of_le h1 h12
      have hmono : -|t₂| / 100 ≤ -|t₁| / 100 := by
        rw [abs_of_pos h1, abs_of_pos h2]
        linarith
      exact decide_eq_true_eq.mpr (le_trans (of_decide_eq_true hp2) hmono)

/-- Witness for C5 on a two-point series with a 10% drop, at thresholds
5 and 20: the lower threshold keeps at least as many points. -/
theorem dropsOf_spec_witness :
    (dropsOf 20 [⟨200001, 100, none⟩, ⟨200002, 90, some (-1/10)⟩]).length ≤
      (dropsOf 5 [⟨200001, 100, none⟩, ⟨200002, 90, some (-1/10)⟩]).length :=
  (dropsOf_spec [⟨200001, 100, none⟩, ⟨200002, 90, some (-1/10)⟩] 5 20
    (by norm_num) (by norm_num)).2.2

/-- Claim C3: for every ascending-ordered price history and target date,
the purchase lookup returns the first record whose date is on or after
the target (which, by the ordering, is also date-minimal among all such
records), and fails with the no-trading-day error exactly when no record
has a date on or after the target. -/
theorem closeOnOrAfter_spec (rows : List DailyRow) (ymd : ℕ)
    (hsort : rows.Pairwise (fun a b => a.date ≤ b.date)) :
    (fetchHistoricalCloseOnOrAfter rows ymd = .error (.noTradingDay ymd) ↔
      ∀ r ∈ rows, r.date < ymd) ∧
    (∀ res, fetchHistoricalCloseOnOrAfter rows ymd = .ok res →
      ∃ l₁ target l₂, rows = l₁ ++ target :: l₂ ∧
        res = ⟨target.date, target.close, rows⟩ ∧
        ymd ≤ target.date ∧ (∀ q ∈ l₁, q.date < ymd) ∧
        ∀ q ∈ rows, ymd ≤ q.date → target.date ≤ q.date) := by
  cases hfind : rows.find? (fun r => decide (ymd ≤ r.date)) with
  | none =>
    have hall : ∀ r ∈ rows, r.date < ymd := by
      intro r hr
      have := List.find?_eq_none.mp hfind r hr
      simpa using this
    constructor
    · simp only [fetchHistoricalCloseOnOrAfter, hfind]
      exact ⟨fun _ => hall, fun _ => trivial⟩
    · intro res hres
      simp only [fetchHistoricalCloseOnOrAfter, hfind] at hres
      cases hres
  | some target =>
    obtain ⟨l₁, l₂, hsplit, hpa, hprev⟩ := find?_split hfind
    have htarget : ymd ≤ target.date := of_decide_eq_true hpa
    constructor
    · simp only [fetchHistoricalCloseOnOrAfter, hfind]
      constructor
      · intro hcontra
        cases hcontra
      · intro hall
        have hmem : target ∈ rows := by
          rw [hsplit]
          exact List.mem_append_right l₁ (List.mem_cons_self target l₂)
        exact absurd htarget (not_le_of_lt (hall target hmem))
    · intro res hres
      simp only [fetchHistoricalCloseOnOrAfter, hfind] at hres
      refine ⟨l₁, target, l₂, hsplit, (Except.ok.inj hres).symm, htarget, ?_, ?_⟩
      · intro q hq
        have := hprev q hq
        have hq2 : ¬ ymd ≤ q.date := by simpa using this
        exact lt_of_not_le hq2
      · intro q hq hymd
        rw [hsplit] at hq hsort
        have hparts := List.pairwise_append.mp hsort
        rcases List.mem_append.mp hq with hq1 | hq2
        · exact absurd hymd (by simpa using hprev q hq1)
        · rcases List.mem_cons.mp hq2 with rfl | hq3
          · exact le_refl _
          · exact (List.pairwise_cons.mp hparts.2.1).1 q hq3

/-- Witness for C3 at scenario A: a one-record history on 2000-01-03 with
close 10, queried for purchase date 2000-01-01, resolves to close 10 on
2000-01-03; the error characterisation holds at the same input. -/
theorem closeOnOrAfter_spec_witness :
    (fetchHistoricalCloseOnOrAfter [⟨20000103, 10⟩] 20000101 =
        .error (.noTradingDay 20000101) ↔
      ∀ r ∈ [DailyRow.mk 20000103 10], r.date < 20000101) ∧
    fetchHistoricalCloseOnOrAfter [⟨20000103, 10⟩] 20000101 =
      .ok ⟨20000103, 10, [⟨20000103, 10⟩]⟩ :=
  ⟨(closeOnOrAfter_spec [⟨20000103, 10⟩] 20000101 (by simp)).1, rfl⟩

/-- Concrete history whose only record has a zero close. -/
def zeroCloseHist : List DailyRow := [⟨20000103, 0⟩]

/-- Concrete USD position bought before the zero-close record. -/
def zeroCloseRow : Row := ⟨1, "NVDA", 1000, .usd, 20000101⟩

/-- Counterexample to claim C1: the resolved purchase close is zero, yet
the valuation succeeds (`isOk`) instead of failing — the code contains no
InvalidPrice check at all, and the division is performed regardless. -/
theorem invalidPrice_cex :
    (fetchHistoricalCloseOnOrAfter zeroCloseHist 20000101).map HistResult.close =
      .ok 0 ∧
    (valueOne (fun _ => none) none (fun _ => zeroCloseHist) zeroCloseRow).isOk =
      true :=
  ⟨rfl, rfl⟩

/-- Claim C1 as amended: position valuation never inspects the resolved
purchase close: whenever the row's fields are present and some trading day
on or after the purchase date exists, the valuation succeeds and computes
`shares = amountUSD / purchaseClose` unconditionally — also when the close
is zero or otherwise invalid (no InvalidPrice failure exists). -/
theorem valueOne_unconditional_division (quoteMap : String → Option ℚ)
    (eurusdNow : Option ℚ) (histories : String → List DailyRow) (r : Row)
    (hist : HistResult) (hmf : missingFields r = false)
    (hh : fetchHistoricalCloseOnOrAfter (histories (normalizeTicker r.ticker))
        r.date = .ok hist) :
    ∃ res, valueOne quoteMap eurusdNow histories r = .ok res ∧
      res.purchaseClose = hist.close ∧
      res.shares = amountUSDof r.currency r.amount eurusdNow / hist.close := by
  simp only [valueOne, hmf, Bool.false_eq_true, if_false, hh]
  exact ⟨_, rfl, rfl, rfl⟩

/-- Witness for the amended C1 at a zero purchase close: the valuation
returns a result whose stored close is 0 and whose share count is the
(unchecked) division by that zero close. -/
theorem valueOne_unconditional_division_witness :
    ∃ res, valueOne (fun _ => none) none (fun _ => zeroCloseHist)
        ⟨2, "MSFT", 500, .usd, 20000101⟩ = .ok res ∧
      res.purchaseClose = (0 : ℚ) ∧
      res.shares = amountUSDof .usd 500 none / (0 : ℚ) :=
  valueOne_unconditional_division (fun _ => none) none (fun _ => zeroCloseHist)
    ⟨2, "MSFT", 500, .usd, 20000101⟩ ⟨20000103, 0, zeroCloseHist⟩
    (by decide) rfl

/-- Claim C8: for an EUR-denominated position with no FX rate available,
the entered amount is used unchanged as the USD amount and the valuation
still succeeds (the fallback is not an error). -/
theorem eur_no_fx_fallback (quoteMap : String → Option ℚ)
    (histories : String → List DailyRow) (r : Row) (hist : HistResult)
    (hcur : r.currency = .eur) (hmf : missingFields r = false)
    (hh : fetchHistoricalCloseOnOrAfter (histories (normalizeTicker r.ticker))
        r.date = .ok hist) :
    amountUSDof r.currency r.amount none = r.amount ∧
    ∃ res, valueOne quoteMap none histories r = .ok res ∧
      res.amountInvested = r.amount ∧ res.amountOriginal = r.amount := by
  have hamount : amountUSDof r.currency r.amount none = r.amount := by
    rw [hcur]; rfl
  refine ⟨hamount, ?_⟩
  simp only [valueOne, hmf, Bool.false_eq_true, if_false, hh]
  exact ⟨_, rfl, hamount, rfl⟩

/-- Witness for C8 at scenario D: an EUR position of amount 1000 with no
FX rate values successfully with `amountUSD = 1000`. -/
theorem eur_no_fx_fallback_witness :
    amountUSDof Currency.eur 1000 none = 1000 ∧
    ∃ res, valueOne (fun _ => none) none (fun _ => [⟨20000103, (10 : ℚ)⟩])
        ⟨1, "NVDA", 1000, .eur, 20000101⟩ = .ok res ∧
      res.amountInvested = 1000 ∧ res.amountOriginal = 1000 :=
  eur_no_fx_fallback (fun _ => none) (fun _ => [⟨20000103, (10 : ℚ)⟩])
    ⟨1, "NVDA", 1000, .eur, 20000101⟩ ⟨20000103, 10, [⟨20000103, (10 : ℚ)⟩]⟩
    rfl (by decide) rfl

/-- Claim C9: if valuing any position fails, the whole calculation attempt
is abandoned and the results are cleared to empty — both in the valuation
pipeline (`calculate`) and in the monthly-drops pipeline. -/
theorem all_or_nothing (quoteMap : String → Option ℚ) (eurusd : Option ℚ)
    (useEur : Bool) (fx : Option ℚ) (histories : String → List DailyRow)
    (thresholdPct : ℚ) (rows : List Row) :
    ((∃ r ∈ rows, ∃ e,
        valueOne quoteMap (eurusdNowOf eurusd useEur fx) histories r = .error e) →
      (calculate quoteMap eurusd useEur fx histories rows).results = [] ∧
      (calculate quoteMap eurusd useEur fx histories rows).error.isSome = true) ∧
    ((∃ r ∈ rows, ∃ e, perSymbolOne fx histories r = .error e) →
      (computeMonthlyDrops fx histories thresholdPct rows).monthlySeries = [] ∧
      (computeMonthlyDrops fx histories thresholdPct rows).bigDrops = [] ∧
      (computeMonthlyDrops fx histories thresholdPct rows).error.isSome = true) := by
  constructor
  · rintro ⟨r, hmem, e, hf⟩
    obtain ⟨e2, h2⟩ := exceptMap_error_of_mem _ rows r e hmem hf
    simp [calculate, h2]
  · rintro ⟨r, hmem, e, hf⟩
    obtain ⟨e2, h2⟩ := exceptMap_error_of_mem _ rows r e hmem hf
    simp [computeMonthlyDrops, h2]

/-- Witness for C9: a row with an empty ticker makes both pipelines clear
their results and report an error. -/
theorem all_or_nothing_witness :
    ((calculate (fun _ => none) none false none (fun _ => [])
        [⟨1, "", 1000, .usd, 20000101⟩]).results = [] ∧
      (calculate (fun _ => none) none false none (fun _ => [])
        [⟨1, "", 1000, .usd, 20000101⟩]).error.isSome = true) ∧
    ((computeMonthlyDrops none (fun _ => []) 15
        [⟨1, "", 1000, .usd, 20000101⟩]).monthlySeries = [] ∧
      (computeMonthlyDrops none (fun _ => []) 15
        [⟨1, "", 1000, .usd, 20000101⟩]).bigDrops = [] ∧
      (computeMonthlyDrops none (fun _ => []) 15
        [⟨1, "", 1000, .usd, 20000101⟩]).error.isSome = true) := by
  have h := all_or_nothing (fun _ => none) none false none (fun _ => []) 15
    [⟨1, "", 1000, .usd, 20000101⟩]
  exact ⟨h.1 ⟨_, List.mem_cons_self _ _, .missingField, rfl⟩,
         h.2 ⟨_, List.mem_cons_self _ _, .missingField, rfl⟩⟩

theorem withMoMTail_get (prev : MonthlyVal) (l : List MonthlyVal) :
    ∀ (i : ℕ) (p q : MonthlyVal), l[i]? = some p → (prev :: l)[i]? = some q →
      (withMoMTail prev l)[i]? = some ⟨p.month, p.valueUSD, momOf q p⟩ := by
  induction l generalizing prev with
  | nil => intro i p q hp _; simp at hp
  | cons y t ih =>
    intro i p q hp hq
    cases i with
    | zero =>
      simp only [List.getElem?_cons_zero, Option.some.injEq] at hp hq
      subst hp; subst hq
      simp [withMoMTail]
    | succ j =>
      simp only [List.getElem?_cons_succ] at hp hq
      simpa [withMoMTail] using ih y j p q hp hq

theorem withMoM_get_zero (l : List MonthlyVal) (p : MonthlyVal)
    (hp : l[0]? = some p) :
    (withMoM l)[0]? = some ⟨p.month, p.valueUSD, none⟩ := by
  cases l with
  | nil => simp at hp
  | cons x t =>
    simp only [List.getElem?_cons_zero, Option.some.injEq] at hp
    subst hp
    simp [withMoM]

theorem withMoM_get_succ (l : List MonthlyVal) (i : ℕ) (p q : MonthlyVal)
    (hp : l[i + 1]? = some p) (hq : l[i]? = some q) :
    (withMoM l)[i + 1]? = some ⟨p.month, p.valueUSD, momOf q p⟩ := by
  cases l with
  | nil => simp at hp
  | cons x t =>
    simp only [List.getElem?_cons_succ] at hp
    simpa [withMoM] using withMoMTail_get x t i p q hp hq

/-- Claim C4: in the aggregated monthly portfolio series, every month
whose summed value is not positive is dropped (and every month with a
positive sum is kept with exactly that sum); on the remaining series the
change column is absent at index 0 and, for every `i > 0`, is computed
from the previous point: it equals `value[i]/value[i-1] - 1` exactly, and
is absent iff the previous value is not positive. -/
theorem aggregator_spec (ps : List PerSymbol) :
    (∀ p ∈ portfolioSeries ps,
      0 < p.valueUSD ∧ p.valueUSD = monthValue ps p.month) ∧
    (∀ m ∈ monthsSorted ps, 0 < monthValue ps m →
      MonthlyVal.mk m (monthValue ps m) ∈ portfolioSeries ps) ∧
    (∀ p, (portfolioSeries ps)[0]? = some p →
      (withMoM (portfolioSeries ps))[0]? = some ⟨p.month, p.valueUSD, none⟩) ∧
    (∀ i p q, (portfolioSeries ps)[i + 1]? = some p →
      (portfolioSeries ps)[i]? = some q →
      (withMoM (portfolioSeries ps))[i + 1]? =
        some ⟨p.month, p.valueUSD, momOf q p⟩ ∧
      (momOf q p = none ↔ q.valueUSD ≤ 0) ∧
      (0 < q.valueUSD → momOf q p = some (p.valueUSD / q.valueUSD - 1))) := by
  refine ⟨?_, ?_, withMoM_get_zero _, ?_⟩
  · intro p hp
    rw [portfolioSeries, List.mem_filter] at hp
    obtain ⟨hmem, hpos⟩ := hp
    refine ⟨of_decide_eq_true hpos, ?_⟩
    obtain ⟨m, _, rfl⟩ := List.mem_map.mp hmem
    rfl
  · intro m hm hpos
    rw [portfolioSeries, List.mem_filter]
    exact ⟨List.mem_map_of_mem _ hm, decide_eq_true_eq.mpr hpos⟩
  · intro i p q hp hq
    refine ⟨withMoM_get_succ _ i p q hp hq, ?_, ?_⟩
    · rw [momOf]
      constructor
      · intro hnone
        by_contra hle
        rw [if_pos (lt_of_not_le hle)] at hnone
        cases hnone
      · intro hle
        rw [if_neg (not_lt_of_le hle)]
    · intro hpos
      rw [momOf, if_pos hpos]

/-- Concrete single-asset portfolio used by the C4 witness. -/
def psWitness : List PerSymbol :=
  [⟨"X", 1, [⟨200001, 100⟩, ⟨200002, 90⟩, ⟨200003, 95⟩, ⟨200004, 70⟩]⟩]

/-- Witness for C4: on a concrete aggregated series, the point at index 1
carries the change computed from the point at index 0. -/
theorem aggregator_spec_witness :
    (withMoM (portfolioSeries psWitness))[1]? =
      some ⟨200002, 90, momOf ⟨200001, 100⟩ ⟨200002, 90⟩⟩ :=
  ((aggregator_spec psWitness).2.2.2 0 ⟨200002, 90⟩ ⟨200001, 100⟩
    (by norm_num [psWitness, portfolioSeries, monthsSorted, monthValue,
      List.insertionSort, List.orderedInsert, List.dedup, List.foldl,
      List.find?, List.filter, List.pwFilter])
    (by norm_num [psWitness, portfolioSeries, monthsSorted, monthValue,
      List.insertionSort, List.orderedInsert, List.dedup, List.foldl,
      List.find?, List.filter, List.pwFilter])).1

/-- The running peak of the drawdown loop over a processed prefix, seeded
with the first in-range value. -/
def runPeak (v0 : ℚ) (l : List MonthlyPoint) : ℚ :=
  l.foldl (fun a p => if p.valueUSD > a then p.valueUSD else a) v0

theorem peak_if_max (a : ℚ) (p : MonthlyPoint) :
    (if p.valueUSD > a then p.valueUSD else a) = max a p.valueUSD := by
  rcases le_or_lt p.valueUSD a with h | h
  · rw [if_neg (not_lt_of_le h), max_eq_left h]
  · rw [if_pos h, max_eq_right (le_of_lt h)]

theorem runPeak_append (v0 : ℚ) (l : List MonthlyPoint) (p : MonthlyPoint) :
    runPeak v0 (l ++ [p]) = max (runPeak v0 l) p.valueUSD := by
  rw [runPeak, List.foldl_append, List.foldl_cons, List.foldl_nil]
  exact peak_if_max _ p

theorem le_runPeak (v0 : ℚ) (l : List MonthlyPoint) : v0 ≤ runPeak v0 l := by
  induction l generalizing v0 with
  | nil => simp [runPeak]
  | cons q t ih =>
    rw [runPeak, List.foldl_cons]
    refine le_trans ?_ (ih (if q.valueUSD > v0 then q.valueUSD else v0))
    rw [peak_if_max]
    exact le_max_left _ _

theorem runPeak_pos {v0 : ℚ} (hv0 : 0 < v0) (l : List MonthlyPoint) :
    0 < runPeak v0 l := lt_of_lt_of_le hv0 (le_runPeak v0 l)

theorem index_extend {ctx : List MonthlyPoint} (p : MonthlyPoint) {i : ℕ}
    {q : MonthlyPoint} (h : ctx[i]? = some q) :
    (ctx ++ [p])[i]? = some q ∧ (ctx ++ [p]).take (i + 1) = ctx.take (i + 1) := by
  have hi : i < ctx.length := by
    by_contra hc
    rw [List.getElem?_eq_none (le_of_not_lt hc)] at h
    cases h
  constructor
  · rw [List.getElem?_append_left hi]
    exact h
  · exact List.take_append_of_le_length hi

/-- Invariant of the drawdown loop after processing the prefix `ctx`:
the stored peak is the running maximum, the worst drawdown is nonpositive
and is a lower bound of the drawdown at every processed point, and the
trough is a processed point attaining it. -/
def ddInv (v0 : ℚ) (ctx : List MonthlyPoint) (st : DDState) : Prop :=
  st.peak = runPeak v0 ctx ∧
  st.worstDD ≤ 0 ∧
  (∀ (i : ℕ) (q : MonthlyPoint), ctx[i]? = some q →
    st.worstDD ≤ q.valueUSD / runPeak v0 (ctx.take (i + 1)) - 1) ∧
  (∃ (i : ℕ) (q : MonthlyPoint), ctx[i]? = some q ∧ st.troughMonth = q.month ∧
    st.troughValue = q.valueUSD ∧
    q.valueUSD / runPeak v0 (ctx.take (i + 1)) - 1 = st.worstDD)

theorem ddStep_inv {v0 : ℚ} (hv0 : 0 < v0) (ctx : List MonthlyPoint)
    (st : DDState) (hinv : ddInv v0 ctx st) (p : MonthlyPoint)
    (hp : 0 < p.valueUSD) : ddInv v0 (ctx ++ [p]) (ddStep st p) := by
  obtain ⟨hpk, hw, hmin, hatt⟩ := hinv
  have hlen1 : (ctx ++ [p])[ctx.length]? = some p := List.getElem?_concat_length ctx p
  have hlen2 : (ctx ++ [p]).take (ctx.length + 1) = ctx ++ [p] := by
    apply List.take_of_length_le
    simp
  have hnewpeak : runPeak v0 (ctx ++ [p]) = max st.peak p.valueUSD := by
    rw [runPeak_append, hpk]
  have hoq : ∀ (i : ℕ) (q : MonthlyPoint), (ctx ++ [p])[i]? = some q →
      i < ctx.length ∨ (i = ctx.length ∧ q = p) := by
    intro i q hq
    have hib : i < (ctx ++ [p]).length := by
      by_contra hc
      rw [List.getElem?_eq_none (le_of_not_lt hc)] at hq
      cases hq
    rw [List.length_append, List.length_cons, List.length_nil] at hib
    rcases Nat.lt_succ_iff_lt_or_eq.mp hib with hi | hi
    · exact Or.inl hi
    · subst hi
      rw [hlen1] at hq
      exact Or.inr ⟨rfl, (Option.some.inj hq).symm⟩
  by_cases hgt : p.valueUSD > st.peak
  · -- the point raises the peak; its own drawdown is 0
    have hpeakmax : max st.peak p.valueUSD = p.valueUSD :=
      max_eq_right (le_of_lt hgt)
    have hself : p.valueUSD / p.valueUSD - 1 = 0 := by
      rw [div_self (ne_of_gt hp)]; ring
    have hstep : ddStep st p =
        { st with peak := p.valueUSD, peakMonth := p.month } := by
      rw [ddStep]
      simp only [if_pos hgt]
      rw [if_pos hp]
      rw [hself]
      rw [if_neg (not_lt_of_le hw)]
    rw [hstep]
    refine ⟨by rw [hnewpeak, hpeakmax], hw, ?_, ?_⟩
    · intro i q hq
      rcases hoq i q hq with hi | ⟨hi, hqp⟩
      · obtain ⟨hq2, htake⟩ := index_extend p (List.getElem?_append_left hi ▸ hq)
        rw [htake]
        exact hmin i q (List.getElem?_append_left hi ▸ hq)
      · subst hi; subst hqp
        rw [hlen2, hnewpeak, hpeakmax, hself]
        exact hw
    · obtain ⟨i, q, hq, hm, hv, hd⟩ := hatt
      obtain ⟨hq2, htake⟩ := index_extend p hq
      exact ⟨i, q, hq2, hm, hv, by rw [htake]; exact hd⟩
  · -- the peak is unchanged
    have hple : p.valueUSD ≤ st.peak := le_of_not_lt hgt
    have hpeakmax : max st.peak p.valueUSD = st.peak := max_eq_left hple
    have hpkpos : st.peak > 0 := by
      rw [hpk]; exact runPeak_pos hv0 ctx
    have hddle : p.valueUSD / st.peak - 1 ≤ 0 := by
      rw [sub_nonpos]
      exact (div_le_one hpkpos).mpr hple
    by_cases hdd : p.valueUSD / st.peak - 1 < st.worstDD
    · have hstep : ddStep st p =
          { st with worstDD := p.valueUSD / st.peak - 1,
                    troughValue := p.valueUSD, troughMonth := p.month } := by
        rw [ddStep]
        simp only [if_neg hgt]
        rw [if_pos hpkpos, if_pos hdd]
      rw [hstep]
      refine ⟨by rw [hnewpeak, hpeakmax], hddle, ?_, ?_⟩
      · intro i q hq
        rcases hoq i q hq with hi | ⟨hi, hqp⟩
        · obtain ⟨hq2, htake⟩ := index_extend p (List.getElem?_append_left hi ▸ hq)
          rw [htake]
          exact le_trans (le_of_lt hdd) (hmin i q (List.getElem?_append_left hi ▸ hq))
        · subst hi; subst hqp
          rw [hlen2, hnewpeak, hpeakmax]
      · refine ⟨ctx.length, p, hlen1, rfl, rfl, ?_⟩
        rw [hlen2, hnewpeak, hpeakmax]
    · have hstep : ddStep st p = st := by
        rw [ddStep]
        simp only [if_neg hgt]
        rw [if_pos hpkpos, if_neg hdd]
      rw [hstep]
      refine ⟨by rw [hnewpeak, hpeakmax], hw, ?_, ?_⟩
      · intro i q hq
        rcases hoq i q hq with hi | ⟨hi, hqp⟩
        · obtain ⟨hq2, htake⟩ := index_extend p (List.getElem?_append_left hi ▸ hq)
          rw [htake]
          exact hmin i q (List.getElem?_append_left hi ▸ hq)
        · subst hi; subst hqp
          rw [hlen2, hnewpeak, hpeakmax]
          exact le_of_not_lt hdd
      · obtain ⟨i, q, hq, hm, hv, hd⟩ := hatt
        obtain ⟨hq2, htake⟩ := index_extend p hq
        exact ⟨i, q, hq2, hm, hv, by rw [htake]; exact hd⟩

theorem ddFold_inv {v0 : ℚ} (hv0 : 0 < v0) :
    ∀ (rest ctx : List MonthlyPoint) (st : DDState),
      (∀ q ∈ rest, 0 < q.valueUSD) → ddInv v0 ctx st →
      ddInv v0 (ctx ++ rest) (rest.foldl ddStep st) := by
  intro rest
  induction rest with
  | nil => intro ctx st _ hinv; simpa using hinv
  | cons p rest2 ih =>
    intro ctx st hpos hinv
    have hstep := ddStep_inv hv0 ctx st hinv p (hpos p (List.mem_cons_self p rest2))
    have hrec := ih (ctx ++ [p]) (ddStep st p)
      (fun q hq => hpos q (List.mem_cons_of_mem p hq)) hstep
    rw [List.foldl_cons]
    rw [List.append_cons ctx p rest2]
    exact hrec

theorem ddStep_init (h0 : MonthlyPoint) (hp : 0 < h0.valueUSD) :
    ddStep (ddInit h0) h0 = ddInit h0 := by
  have hself : h0.valueUSD / h0.valueUSD - 1 = 0 := by
    rw [div_self (ne_of_gt hp)]; ring
  rw [ddStep, ddInit]
  simp only [if_neg (lt_irrefl h0.valueUSD)]
  rw [if_pos hp, hself, if_neg (lt_irrefl 0)]

theorem ddInv_init (h0 : MonthlyPoint) (hp : 0 < h0.valueUSD) :
    ddInv h0.valueUSD [h0] (ddInit h0) := by
  have hself : h0.valueUSD / h0.valueUSD - 1 = 0 := by
    rw [div_self (ne_of_gt hp)]; ring
  have hpeak : runPeak h0.valueUSD [h0] = h0.valueUSD := by
    rw [runPeak, List.foldl_cons, List.foldl_nil, if_neg (lt_irrefl h0.valueUSD)]
  refine ⟨hpeak.symm, le_refl 0, ?_, 0, h0, rfl, rfl, rfl, ?_⟩
  · intro i q hq
    cases i with
    | zero =>
      simp only [List.getElem?_cons_zero, Option.some.injEq] at hq
      subst hq
      simp only [List.take_succ_cons, List.take_nil, hpeak, hself]
      exact le_refl 0
    | succ j => simp at hq
  · simp only [List.take_succ_cons, List.take_nil, hpeak, hself]
    rfl

theorem ddScan_inv (h0 : MonthlyPoint) (t : List MonthlyPoint)
    (hpos : ∀ q ∈ h0 :: t, 0 < q.valueUSD) :
    ddInv h0.valueUSD (h0 :: t) ((h0 :: t).foldl ddStep (ddInit h0)) := by
  have hp0 : 0 < h0.valueUSD := hpos h0 (List.mem_cons_self h0 t)
  rw [List.foldl_cons, ddStep_init h0 hp0]
  have := ddFold_inv hp0 t [h0] (ddInit h0)
    (fun q hq => hpos q (List.mem_cons_of_mem h0 hq)) (ddInv_init h0 hp0)
  simpa using this

/-- Concrete monthly series for scenario C: values 100, 150, 120, 80, 200
on consecutive months inside the dot-com window. -/
def scenarioCSeries : List MonthlyPoint :=
  [⟨200003, 100, none⟩, ⟨200004, 150, none⟩, ⟨200005, 120, none⟩,
   ⟨200006, 80, none⟩, ⟨200007, 200, none⟩]

/-- Claim C7: for every crisis event whose in-range series is non-empty
(and, as for every aggregated portfolio series, consists of positive
values), the single-pass scan yields a nonpositive maximum drawdown that
lower-bounds the drawdown of every in-range point relative to its running
peak, and the reported trough is an in-range point attaining that bound —
the point of maximum peak-to-point decline, not merely the lowest value.
Moreover, on the scenario-C series the catalogue's first event reports
drawdown `80/150 - 1`, trough at the 80-month and recovery at the
200-month. -/
theorem drawdown_spec (ev : MarketEvent) (series : List MonthlyPoint)
    (h0 : MonthlyPoint) (t : List MonthlyPoint)
    (hin : inRangeOf series ev = h0 :: t)
    (hpos : ∀ p ∈ inRangeOf series ev, 0 < p.valueUSD) :
    (∃ D, (perfForEvent series ev).maxDrawdown = some D ∧ D ≤ 0 ∧
      (∀ (i : ℕ) (q : MonthlyPoint), (h0 :: t)[i]? = some q →
        D ≤ q.valueUSD / runPeak h0.valueUSD ((h0 :: t).take (i + 1)) - 1) ∧
      (∃ (i : ℕ) (q : MonthlyPoint), (h0 :: t)[i]? = some q ∧
        (perfForEvent series ev).troughMonth = some q.month ∧
        q.valueUSD / runPeak h0.valueUSD ((h0 :: t).take (i + 1)) - 1 = D)) ∧
    (eventPerformances scenarioCSeries).head?.map
        (fun e => (e.maxDrawdown, e.troughMonth, e.recoveryMonth)) =
      some (some (80 / 150 - 1), some 200006, some 200007) := by
  constructor
  · rw [hin] at hpos
    obtain ⟨hpk, hw, hmin, i, q, hq, hm, hv, hd⟩ := ddScan_inv h0 t hpos
    have hperf : perfForEvent series ev = perfNonempty ev series h0 t := by
      rw [perfForEvent, hin]
    refine ⟨((h0 :: t).foldl ddStep (ddInit h0)).worstDD, ?_, hw, hmin,
      i, q, hq, ?_, hd⟩
    · rw [hperf]; rfl
    · rw [hperf]
      exact congrArg some hm
  · have hne : eventPerformances scenarioCSeries =
        MARKET_EVENTS.map (perfForEvent scenarioCSeries) := by
      rw [eventPerformances, if_neg (by decide)]
    rw [hne]
    norm_num [MARKET_EVENTS, scenarioCSeries, perfForEvent,
      perfNonempty, inRangeOf, ddStep, ddInit, findIndex, List.filter,
      List.foldl, List.find?, List.head?]

/-- Witness for C7 at scenario C: the dot-com event on the scenario-C
series has a defined, nonpositive maximum drawdown. -/
theorem drawdown_spec_witness :
    ∃ D, (perfForEvent scenarioCSeries
        ⟨"dotcom", "Bolha dot-com", 200003, 200210⟩).maxDrawdown = some D ∧
      D ≤ 0 := by
  obtain ⟨⟨D, hD, hle, _⟩, _⟩ := drawdown_spec
    ⟨"dotcom", "Bolha dot-com", 200003, 200210⟩ scenarioCSeries
    ⟨200003, 100, none⟩
    [⟨200004, 150, none⟩, ⟨200005, 120, none⟩, ⟨200006, 80, none⟩,
     ⟨200007, 200, none⟩]
    (by decide) (by decide)
  exact ⟨D, hD, hle⟩

theorem mem_le_runPeak (v0 : ℚ) (l : List MonthlyPoint) :
    ∀ p ∈ l, p.valueUSD ≤ runPeak v0 l := by
  induction l generalizing v0 with
  | nil => intro p hp; cases hp
  | cons q t ih =>
    intro p hp
    rw [runPeak, List.foldl_cons]
    rcases List.mem_cons.mp hp with rfl | hp2
    · refine le_trans ?_ (le_runPeak _ t)
      rw [peak_if_max]
      exact le_max_right _ _
    · exact ih _ p hp2

theorem runPeak_attained (v0 : ℚ) (l : List MonthlyPoint) :
    runPeak v0 l = v0 ∨ ∃ p ∈ l, runPeak v0 l = p.valueUSD := by
  induction l generalizing v0 with
  | nil => left; rfl
  | cons q t ih =>
    rw [runPeak, List.foldl_cons]
    have hseed : (if q.valueUSD > v0 then q.valueUSD else v0) = v0 ∨
        (if q.valueUSD > v0 then q.valueUSD else v0) = q.valueUSD := by
      by_cases hq : q.valueUSD > v0
      · right; rw [if_pos hq]
      · left; rw [if_neg hq]
    rcases ih (if q.valueUSD > v0 then q.valueUSD else v0) with h | ⟨p, hp, hep⟩
    · rcases hseed with h2 | h2
      · left
        exact h.trans h2
      · right
        exact ⟨q, List.mem_cons_self q t, h.trans h2⟩
    · right
      exact ⟨p, List.mem_cons_of_mem q hp, hep⟩

/-- Modelled from the spec (claim C2): "the peak recorded at drawdown
time, the running peak in effect when the worst drawdown was recorded".
The code keeps no such value, so the spec's comparison peak is tracked
here alongside the code's scan state, updated exactly when the scan
records a new worst drawdown. -/
def ddStepSpec (s : DDState × ℚ) (p : MonthlyPoint) : DDState × ℚ :=
  let st2 := ddStep s.1 p
  if st2.worstDD < s.1.worstDD then (st2, st2.peak) else (st2, s.2)

/-- Modelled from the spec (claim C2): the peak recorded at drawdown time
over an in-range window `h0 :: t`. -/
def peakAtDrawdownTime (h0 : MonthlyPoint) (t : List MonthlyPoint) : ℚ :=
  ((h0 :: t).foldl ddStepSpec (ddInit h0, h0.valueUSD)).2

/-- Modelled from the spec (claim C2): the recovery search as the spec
words it — the first point strictly after the trough whose value reaches
the peak recorded at drawdown time. -/
def specRecoveryMonth (series : List MonthlyPoint) (ev : MarketEvent) :
    Option ℕ :=
  match inRangeOf series ev with
  | [] => none
  | h0 :: t =>
    let st := (h0 :: t).foldl ddStep (ddInit h0)
    let target := peakAtDrawdownTime h0 t
    match findIndex (fun m => decide (m.month = st.troughMonth)) series with
    | some i =>
      ((series.drop (i + 1)).find?
        (fun q => decide (target ≤ q.valueUSD))).map (fun q => q.month)
    | none => none

/-- Concrete monthly series refuting claim C2: values 100, 80, 120, 200
inside the dot-com window.  The worst drawdown is recorded at 80 with
running peak 100; the first later point at or above that peak is the
120-month, but the code compares against the final window peak 200 and
reports the 200-month instead. -/
def series4 : List MonthlyPoint :=
  [⟨200003, 100, none⟩, ⟨200004, 80, none⟩, ⟨200005, 120, none⟩,
   ⟨200006, 200, none⟩]

/-- Counterexample to claim C2: on `series4` the code's recovery month is
the 200-month (200006), while the first post-trough point at or above the
peak recorded at drawdown time is the 120-month (200005). -/
theorem recovery_peak_cex :
    (perfForEvent series4
        ⟨"dotcom", "Bolha dot-com", 200003, 200210⟩).recoveryMonth =
      some 200006 ∧
    specRecoveryMonth series4 ⟨"dotcom", "Bolha dot-com", 200003, 200210⟩ =
      some 200005 ∧
    (perfForEvent series4
        ⟨"dotcom", "Bolha dot-com", 200003, 200210⟩).recoveryMonth ≠
      specRecoveryMonth series4 ⟨"dotcom", "Bolha dot-com", 200003, 200210⟩ := by
  refine ⟨?_, ?_, ?_⟩
  · norm_num [series4, perfForEvent, perfNonempty, inRangeOf, ddStep, ddInit,
      findIndex, List.filter, List.foldl, List.find?]
  · norm_num [series4, specRecoveryMonth, peakAtDrawdownTime, ddStepSpec,
      ddStep, ddInit, inRangeOf, findIndex, List.filter, List.foldl,
      List.find?]
  · norm_num [series4, specRecoveryMonth, peakAtDrawdownTime, ddStepSpec,
      perfForEvent, perfNonempty, inRangeOf, ddStep, ddInit, findIndex,
      List.filter, List.foldl, List.find?]

/-- Claim C2 as amended: for every crisis event with a non-empty in-range
series (of positive values), the recovery search starts at the first index
of the full monthly series whose month is the trough month, excludes the
trough itself, and returns the first later point whose value reaches the
final running peak of the event window — the maximum in-range value, not
the peak in effect when the worst drawdown was recorded; if no such later
point exists, the recovery month is absent. -/
theorem recovery_spec (ev : MarketEvent) (series : List MonthlyPoint)
    (h0 : MonthlyPoint) (t : List MonthlyPoint)
    (hin : inRangeOf series ev = h0 :: t)
    (hpos : ∀ p ∈ inRangeOf series ev, 0 < p.valueUSD) :
    ∃ (finalPeak : ℚ) (l₁ : List MonthlyPoint) (tr : MonthlyPoint)
      (l₂ : List MonthlyPoint),
      (∀ p ∈ h0 :: t, p.valueUSD ≤ finalPeak) ∧
      (∃ p ∈ h0 :: t, p.valueUSD = finalPeak) ∧
      series = l₁ ++ tr :: l₂ ∧
      (perfForEvent series ev).troughMonth = some tr.month ∧
      (∀ x ∈ l₁, x.month ≠ tr.month) ∧
      ((perfForEvent series ev).recoveryMonth = none ↔
        ∀ q ∈ l₂, q.valueUSD < finalPeak) ∧
      (∀ rm, (perfForEvent series ev).recoveryMonth = some rm →
        ∃ l₃ q l₄, l₂ = l₃ ++ q :: l₄ ∧ q.month = rm ∧
          finalPeak ≤ q.valueUSD ∧ ∀ x ∈ l₃, x.valueUSD < finalPeak) := by
  rw [hin] at hpos
  obtain ⟨hpk, hw, hmin, i0, q0, hq0, hm0, hv0, hd0⟩ := ddScan_inv h0 t hpos
  have hperf : perfForEvent series ev = perfNonempty ev series h0 t := by
    rw [perfForEvent, hin]
  set st := (h0 :: t).foldl ddStep (ddInit h0) with hst
  -- the trough point occurs in the full series
  have hq0mem : q0 ∈ h0 :: t := by
    rcases List.getElem?_eq_some.mp hq0 with ⟨hb, hget⟩
    exact hget ▸ List.getElem_mem hb
  have hq0series : q0 ∈ series := by
    have : q0 ∈ inRangeOf series ev := hin ▸ hq0mem
    exact List.mem_of_mem_filter this
  obtain ⟨i, hfi⟩ := findIndex_isSome_of_mem (p := fun m => decide (m.month = st.troughMonth))
    hq0series (decide_eq_true_eq.mpr hm0.symm)
  obtain ⟨l₁, tr, l₂, hsplit, hlen, htr, hfirst⟩ := findIndex_split hfi
  have htrm : tr.month = st.troughMonth := of_decide_eq_true htr
  have hdrop : series.drop (i + 1) = l₂ := by
    rw [hsplit, ← hlen]
    exact drop_split l₁ tr l₂
  have hrec : (perfForEvent series ev).recoveryMonth =
      ((l₂.find? (fun q => decide (st.peak ≤ q.valueUSD))).map
        (fun q => q.month)) := by
    rw [hperf]
    show (match findIndex (fun m => decide (m.month = st.troughMonth)) series with
      | some i =>
        ((series.drop (i + 1)).find?
          (fun q : MonthlyPoint => decide (st.peak ≤ q.valueUSD))).map
          (fun q : MonthlyPoint => q.month)
      | none => none) = _
    rw [hfi]
    show Option.map (fun q : MonthlyPoint => q.month)
        (List.find? (fun q : MonthlyPoint => decide (st.peak ≤ q.valueUSD))
          (List.drop (i + 1) series)) = _
    rw [hdrop]
  refine ⟨st.peak, l₁, tr, l₂, ?_, ?_, hsplit, ?_, ?_, ?_, ?_⟩
  · intro p hp
    rw [hpk]
    exact mem_le_runPeak _ _ p hp
  · rcases runPeak_attained h0.valueUSD (h0 :: t) with h | ⟨p, hp, hep⟩
    · exact ⟨h0, List.mem_cons_self h0 t, by rw [hpk, h]⟩
    · exact ⟨p, hp, by rw [hpk, hep]⟩
  · rw [hperf]
    show some st.troughMonth = some tr.month
    rw [htrm]
  · intro x hx
    have := hfirst x hx
    intro hcontra
    rw [hcontra, htrm] at this
    simp at this
  · rw [hrec]
    constructor
    · intro hnone
      cases hfind : l₂.find? (fun q => decide (st.peak ≤ q.valueUSD)) with
      | none =>
        intro q hq
        have := List.find?_eq_none.mp hfind q hq
        have h2 : ¬ st.peak ≤ q.valueUSD := by simpa using this
        exact lt_of_not_le h2
      | some q =>
        rw [hfind] at hnone
        simp at hnone
    · intro hall
      cases hfind : l₂.find? (fun q => decide (st.peak ≤ q.valueUSD)) with
      | none => rfl
      | some q =>
        obtain ⟨l₃, l₄, _, hq, _⟩ := find?_split hfind
        have hqmem : q ∈ l₂ := by
          rw [‹l₂ = l₃ ++ q :: l₄›]
          exact List.mem_append_right l₃ (List.mem_cons_self q l₄)
        exact absurd (of_decide_eq_true hq) (not_le_of_lt (hall q hqmem))
  · intro rm hrm
    rw [hrec] at hrm
    cases hfind : l₂.find? (fun q => decide (st.peak ≤ q.valueUSD)) with
    | none => rw [hfind] at hrm; cases hrm
    | some q =>
      rw [hfind] at hrm
      obtain ⟨l₃, l₄, hsplit2, hq, hbefore⟩ := find?_split hfind
      refine ⟨l₃, q, l₄, hsplit2, ?_, of_decide_eq_true hq, ?_⟩
      · exact Option.some.inj hrm
      · intro x hx
        have := hbefore x hx
        have h2 : ¬ st.peak ≤ x.valueUSD := by simpa using this
        exact lt_of_not_le h2

/-- Witness for the amended C2 on `series4`: the full series splits at a
point whose month is the reported trough month. -/
theorem recovery_spec_witness :
    ∃ (l₁ : List MonthlyPoint) (tr : MonthlyPoint) (l₂ : List MonthlyPoint),
      series4 = l₁ ++ tr :: l₂ ∧
      (perfForEvent series4
          ⟨"dotcom", "Bolha dot-com", 200003, 200210⟩).troughMonth =
        some tr.month := by
  obtain ⟨fp, l₁, tr, l₂, _, _, hsplit, htrough, _, _, _⟩ :=
    recovery_spec ⟨"dotcom", "Bolha dot-com", 200003, 200210⟩ series4
      ⟨200003, 100, none⟩
      [⟨200004, 80, none⟩, ⟨200005, 120, none⟩, ⟨200006, 200, none⟩]
      (by decide) (by decide)
  exact ⟨l₁, tr, l₂, hsplit, htrough⟩

theorem stepEntry_year (rate : Option ℚ) (c : YearEntry) (p : MonthlyPoint) :
    (stepEntry rate c p).year = c.year := by
  simp only [stepEntry]
  split <;> split <;> rfl

theorem stepEntry_spec (rate : Option ℚ) (c : YearEntry) (p : MonthlyPoint)
    (hmm : c.minUSD ≤ c.maxUSD) :
    (p.valueUSD < c.minUSD ∧ (stepEntry rate c p).minUSD = p.valueUSD ∧
      (stepEntry rate c p).minMonth = p.month ∧
      (stepEntry rate c p).maxUSD = c.maxUSD ∧
      (stepEntry rate c p).maxMonth = c.maxMonth) ∨
    (c.maxUSD < p.valueUSD ∧ (stepEntry rate c p).minUSD = c.minUSD ∧
      (stepEntry rate c p).minMonth = c.minMonth ∧
      (stepEntry rate c p).maxUSD = p.valueUSD ∧
      (stepEntry rate c p).maxMonth = p.month) ∨
    (c.minUSD ≤ p.valueUSD ∧ p.valueUSD ≤ c.maxUSD ∧ stepEntry rate c p = c) := by
  simp only [stepEntry]
  split_ifs with h1 h2 h3
  · exact absurd h2 (by simp; exact le_trans (le_of_lt h1) hmm)
  · left
    exact ⟨h1, rfl, rfl, rfl, rfl⟩
  · right; left
    exact ⟨by simpa using h3, rfl, rfl, rfl, rfl⟩
  · right; right
    exact ⟨le_of_not_lt h1, by simpa using h3, rfl⟩

/-- Invariant of the annual-extremes scan after processing the prefix
`ctx`: the entries carry pairwise-distinct years covering every processed
point, and each entry bounds all processed same-year values and records,
for each extreme, the earliest processed point attaining it. -/
def yearAccInv (ctx : List MonthlyPoint) (acc : List YearEntry) : Prop :=
  List.Pairwise (fun a b => a.year ≠ b.year) acc ∧
  (∀ p ∈ ctx, ∃ e ∈ acc, e.year = yearOf p) ∧
  (∀ e ∈ acc,
    (∀ p ∈ ctx, yearOf p = e.year →
      e.minUSD ≤ p.valueUSD ∧ p.valueUSD ≤ e.maxUSD) ∧
    (∃ l₁ p l₂, ctx = l₁ ++ p :: l₂ ∧ yearOf p = e.year ∧
      p.month = e.minMonth ∧ p.valueUSD = e.minUSD ∧
      ∀ q ∈ l₁, yearOf q = e.year → e.minUSD < q.valueUSD) ∧
    (∃ l₁ p l₂, ctx = l₁ ++ p :: l₂ ∧ yearOf p = e.year ∧
      p.month = e.maxMonth ∧ p.valueUSD = e.maxUSD ∧
      ∀ q ∈ l₁, yearOf q = e.year → q.valueUSD < e.maxUSD))

theorem yearStep_inv (rate : Option ℚ) (ctx : List MonthlyPoint)
    (acc : List YearEntry) (hinv : yearAccInv ctx acc) (p : MonthlyPoint) :
    yearAccInv (ctx ++ [p]) (yearStep rate acc p) := by
  obtain ⟨hpw, hcov, hent⟩ := hinv
  have hys : yearStep rate acc p =
      (if acc.any (fun c => decide (c.year = yearOf p)) then
        acc.map (fun c => if c.year = yearOf p then stepEntry rate c p else c)
      else acc ++ [initEntry rate (yearOf p) p]) := rfl
  have hyear : ∀ c : YearEntry,
      (if c.year = yearOf p then stepEntry rate c p else c).year = c.year := by
    intro c
    split
    · exact stepEntry_year rate c p
    · rfl
  by_cases hany : acc.any (fun c => decide (c.year = yearOf p)) = true
  · rw [hys, if_pos hany]
    refine ⟨?_, ?_, ?_⟩
    · rw [List.pairwise_map]
      exact hpw.imp (fun hne => by rw [hyear, hyear]; exact hne)
    · intro q hq
      rcases List.mem_append.mp hq with hq1 | hq2
      · obtain ⟨e, he, hey⟩ := hcov q hq1
        exact ⟨_, List.mem_map_of_mem _ he, by rw [hyear]; exact hey⟩
      · have hq2b : q = p := by simpa using hq2
        subst hq2b
        obtain ⟨c, hc, hcy⟩ := List.any_eq_true.mp hany
        exact ⟨_, List.mem_map_of_mem _ hc,
          by rw [hyear]; exact of_decide_eq_true hcy⟩
    · intro e2 he2
      obtain ⟨c, hc, hce⟩ := List.mem_map.mp he2
      obtain ⟨hbounds, hattmin, hattmax⟩ := hent c hc
      by_cases hcy : c.year = yearOf p
      · have hce2 : e2 = stepEntry rate c p := by rw [← hce, if_pos hcy]
        subst hce2
        obtain ⟨m₁, x, m₂, hsp, hxy, hxm, hxv, hbefore⟩ := id hattmin
        have hxmem : x ∈ ctx := by
          rw [hsp]
          exact List.mem_append_right m₁ (List.mem_cons_self x m₂)
        have hmm2 : c.minUSD ≤ c.maxUSD := by
          have hb := (hbounds x hxmem hxy).2
          rw [hxv] at hb
          exact hb
        have hey : (stepEntry rate c p).year = c.year := stepEntry_year rate c p
        rcases stepEntry_spec rate c p hmm2 with
          ⟨hlt, hmin1, hmon1, hmax1, hmaxm1⟩ |
          ⟨hgt, hmin1, hmon1, hmax1, hmaxm1⟩ | ⟨hge, hle, heq⟩
        · -- the new point strictly lowers the minimum
          refine ⟨?_, ?_, ?_⟩
          · intro q hq hqy
            rw [hey] at hqy
            rw [hmin1, hmax1]
            rcases List.mem_append.mp hq with hq1 | hq2
            · have hb := hbounds q hq1 hqy
              exact ⟨le_trans (le_of_lt hlt) hb.1, hb.2⟩
            · have hq2b : q = p := by simpa using hq2
              subst hq2b
              exact ⟨le_refl _, le_trans (le_of_lt hlt) hmm2⟩
          · refine ⟨ctx, p, [], rfl, by rw [hey]; exact hcy.symm,
              hmon1.symm, hmin1.symm, ?_⟩
            intro q hq hqy
            rw [hey] at hqy
            rw [hmin1]
            exact lt_of_lt_of_le hlt (hbounds q hq hqy).1
          · obtain ⟨n₁, w, n₂, hsp2, hwy, hwm, hwv, hbef2⟩ := hattmax
            refine ⟨n₁, w, n₂ ++ [p], by rw [hsp2]; simp,
              by rw [hey]; exact hwy, by rw [hmaxm1]; exact hwm,
              by rw [hmax1]; exact hwv, ?_⟩
            intro q hq hqy
            rw [hey] at hqy
            rw [hmax1]
            exact hbef2 q hq hqy
        · -- the new point strictly raises the maximum
          refine ⟨?_, ?_, ?_⟩
          · intro q hq hqy
            rw [hey] at hqy
            rw [hmin1, hmax1]
            rcases List.mem_append.mp hq with hq1 | hq2
            · have hb := hbounds q hq1 hqy
              exact ⟨hb.1, le_trans hb.2 (le_of_lt hgt)⟩
            · have hq2b : q = p := by simpa using hq2
              subst hq2b
              exact ⟨le_trans hmm2 (le_of_lt hgt), le_refl _⟩
          · obtain ⟨n₁, w, n₂, hsp2, hwy, hwm, hwv, hbef2⟩ := hattmin
            refine ⟨n₁, w, n₂ ++ [p], by rw [hsp2]; simp,
              by rw [hey]; exact hwy, by rw [hmon1]; exact hwm,
              by rw [hmin1]; exact hwv, ?_⟩
            intro q hq hqy
            rw [hey] at hqy
            rw [hmin1]
            exact hbef2 q hq hqy
          · refine ⟨ctx, p, [], rfl, by rw [hey]; exact hcy.symm,
              hmaxm1.symm, hmax1.symm, ?_⟩
            intro q hq hqy
            rw [hey] at hqy
            rw [hmax1]
            exact lt_of_le_of_lt (hbounds q hq hqy).2 hgt
        · -- the entry is unchanged
          rw [heq]
          refine ⟨?_, ?_, ?_⟩
          · intro q hq hqy
            rcases List.mem_append.mp hq with hq1 | hq2
            · exact hbounds q hq1 hqy
            · have hq2b : q = p := by simpa using hq2
              subst hq2b
              exact ⟨hge, hle⟩
          · exact ⟨m₁, x, m₂ ++ [p], by rw [hsp]; simp, hxy, hxm, hxv, hbefore⟩
          · obtain ⟨n₁, w, n₂, hsp2, hwy, hwm, hwv, hbef2⟩ := hattmax
            exact ⟨n₁, w, n₂ ++ [p], by rw [hsp2]; simp, hwy, hwm, hwv, hbef2⟩
      · have hce2 : e2 = c := by rw [← hce, if_neg hcy]
        subst hce2
        refine ⟨?_, ?_, ?_⟩
        · intro q hq hqy
          rcases List.mem_append.mp hq with hq1 | hq2
          · exact hbounds q hq1 hqy
          · have hq2b : q = p := by simpa using hq2
            subst hq2b
            exact absurd hqy.symm hcy
        · obtain ⟨m₁, x, m₂, hsp, hxy, hxm, hxv, hbefore⟩ := hattmin
          exact ⟨m₁, x, m₂ ++ [p], by rw [hsp]; simp, hxy, hxm, hxv, hbefore⟩
        · obtain ⟨n₁, w, n₂, hsp2, hwy, hwm, hwv, hbef2⟩ := hattmax
          exact ⟨n₁, w, n₂ ++ [p], by rw [hsp2]; simp, hwy, hwm, hwv, hbef2⟩
  · have hnone : ∀ c ∈ acc, c.year ≠ yearOf p := by
      intro c hc hceq
      exact hany (List.any_eq_true.mpr ⟨c, hc, decide_eq_true_eq.mpr hceq⟩)
    rw [hys, if_neg hany]
    refine ⟨?_, ?_, ?_⟩
    · rw [List.pairwise_append]
      refine ⟨hpw, List.pairwise_singleton _ _, ?_⟩
      intro a ha b hb
      have hb2 : b = initEntry rate (yearOf p) p := by simpa using hb
      subst hb2
      exact hnone a ha
    · intro q hq
      rcases List.mem_append.mp hq with hq1 | hq2
      · obtain ⟨e, he, hey⟩ := hcov q hq1
        exact ⟨e, List.mem_append_left _ he, hey⟩
      · have hq2b : q = p := by simpa using hq2
        subst hq2b
        exact ⟨initEntry rate (yearOf q) q,
          List.mem_append_right _ (List.mem_cons_self _ _), rfl⟩
    · intro e2 he2
      rcases List.mem_append.mp he2 with he2a | he2b
      · obtain ⟨hbounds, hattmin, hattmax⟩ := hent e2 he2a
        refine ⟨?_, ?_, ?_⟩
        · intro q hq hqy
          rcases List.mem_append.mp hq with hq1 | hq2
          · exact hbounds q hq1 hqy
          · have hq2b : q = p := by simpa using hq2
            subst hq2b
            exact absurd hqy.symm (hnone e2 he2a)
        · obtain ⟨m₁, x, m₂, hsp, hxy, hxm, hxv, hbefore⟩ := hattmin
          exact ⟨m₁, x, m₂ ++ [p], by rw [hsp]; simp, hxy, hxm, hxv, hbefore⟩
        · obtain ⟨n₁, w, n₂, hsp2, hwy, hwm, hwv, hbef2⟩ := hattmax
          exact ⟨n₁, w, n₂ ++ [p], by rw [hsp2]; simp, hwy, hwm, hwv, hbef2⟩
      · have he2c : e2 = initEntry rate (yearOf p) p := by simpa using he2b
        subst he2c
        have hnoctx : ∀ q ∈ ctx, yearOf q ≠ yearOf p := by
          intro q hq hqeq
          obtain ⟨e, he, hey⟩ := hcov q hq
          exact hnone e he (hey.trans hqeq)
        refine ⟨?_, ?_, ?_⟩
        · intro q hq hqy
          rcases List.mem_append.mp hq with hq1 | hq2
          · exact absurd hqy (hnoctx q hq1)
          · have hq2b : q = p := by simpa using hq2
            subst hq2b
            exact ⟨le_refl _, le_refl _⟩
        · refine ⟨ctx, p, [], rfl, rfl, rfl, rfl, ?_⟩
          intro q hq hqy
          exact absurd hqy (hnoctx q hq)
        · refine ⟨ctx, p, [], rfl, rfl, rfl, rfl, ?_⟩
          intro q hq hqy
          exact absurd hqy (hnoctx q hq)

theorem yearFold_inv (rate : Option ℚ) :
    ∀ (rest ctx : List MonthlyPoint) (acc : List YearEntry),
      yearAccInv ctx acc →
      yearAccInv (ctx ++ rest) (rest.foldl (yearStep rate) acc) := by
  intro rest
  induction rest with
  | nil => intro ctx acc hinv; simpa using hinv
  | cons p rest2 ih =>
    intro ctx acc hinv
    have hrec := ih (ctx ++ [p]) (yearStep rate acc p)
      (yearStep_inv rate ctx acc hinv p)
    rw [List.foldl_cons, List.append_cons ctx p rest2]
    exact hrec

theorem yearAccInv_nil : yearAccInv [] [] := by
  refine ⟨List.Pairwise.nil, ?_, ?_⟩
  · intro p hp; cases hp
  · intro e he; cases he

instance yearEntryLeTotal : IsTotal YearEntry (fun a b => a.year ≤ b.year) :=
  ⟨fun a b => Nat.le_total a.year b.year⟩

instance yearEntryLeTrans : IsTrans YearEntry (fun a b => a.year ≤ b.year) :=
  ⟨fun _ _ _ hab hbc => le_trans hab hbc⟩

/-- Claim C6: every annual-extremes entry bounds all of its year's values
(`minUSD ≤ valueUSD ≤ maxUSD`), its `minMonth` and `maxMonth` reference
points of that year, ties keep the first-seen month (every same-year point
strictly before the referenced one is strictly worse than the recorded
extreme, so later equal values never overwrite); moreover every year
present in the series yields an output entry, and the output is sorted
ascending by year. -/
theorem yearExtremes_spec (series : List MonthlyPoint) (rate : Option ℚ) :
    (∀ e ∈ yearExtremes series rate,
      (∀ p ∈ series, yearOf p = e.year →
        e.minUSD ≤ p.valueUSD ∧ p.valueUSD ≤ e.maxUSD) ∧
      (∃ l₁ p l₂, series = l₁ ++ p :: l₂ ∧ yearOf p = e.year ∧
        p.month = e.minMonth ∧ p.valueUSD = e.minUSD ∧
        ∀ q ∈ l₁, yearOf q = e.year → e.minUSD < q.valueUSD) ∧
      (∃ l₁ p l₂, series = l₁ ++ p :: l₂ ∧ yearOf p = e.year ∧
        p.month = e.maxMonth ∧ p.valueUSD = e.maxUSD ∧
        ∀ q ∈ l₁, yearOf q = e.year → q.valueUSD < e.maxUSD)) ∧
    (∀ p ∈ series, ∃ e ∈ yearExtremes series rate, e.year = yearOf p) ∧
    List.Pairwise (fun a b => a.year ≤ b.year) (yearExtremes series rate) := by
  by_cases hs : series = []
  · subst hs
    have hempty : yearExtremes [] rate = [] := by rw [yearExtremes, if_pos rfl]
    rw [hempty]
    exact ⟨fun e he => absurd he (List.not_mem_nil e),
      fun p hp => absurd hp (List.not_mem_nil p), List.Pairwise.nil⟩
  · have hunf : yearExtremes series rate =
        List.insertionSort (fun a b => a.year ≤ b.year)
          (series.foldl (yearStep rate) []) := by
      rw [yearExtremes, if_neg hs]
    have hinv := yearFold_inv rate series [] [] yearAccInv_nil
    simp only [List.nil_append] at hinv
    obtain ⟨_, hcov, hent⟩ := hinv
    refine ⟨?_, ?_, ?_⟩
    · intro e he
      rw [hunf] at he
      exact hent e ((List.mem_insertionSort _).mp he)
    · intro p hp
      obtain ⟨e, he, hey⟩ := hcov p hp
      refine ⟨e, ?_, hey⟩
      rw [hunf]
      exact (List.mem_insertionSort _).mpr he
    · rw [hunf]
      exact List.sorted_insertionSort _ _

/-- Concrete monthly series for the C6 witness, with a tie on the 2000
minimum (40 in both 2000-02 and 2000-03). -/
def seriesYW : List MonthlyPoint :=
  [⟨200001, 50, none⟩, ⟨200002, 40, none⟩, ⟨200003, 40, none⟩,
   ⟨200101, 10, none⟩, ⟨200102, 90, none⟩]

/-- Witness for C6: the year-2000 entry records minimum 40 at month
2000-02 — the first of the two tied months — every earlier point of that
year is strictly above 40, and the year 2000 (present in the series) does
yield an output entry. -/
theorem yearExtremes_spec_witness :
    (∃ l₁ p l₂, seriesYW = l₁ ++ p :: l₂ ∧ yearOf p = 2000 ∧
      p.month = 200002 ∧ p.valueUSD = 40 ∧
      ∀ q ∈ l₁, yearOf q = 2000 → (40 : ℚ) < q.valueUSD) ∧
    ∃ e ∈ yearExtremes seriesYW none, e.year = 2000 :=
  ⟨((yearExtremes_spec seriesYW none).1
      ⟨2000, 40, 50, 200002, 200001, none, none⟩ (by decide)).2.1,
    (yearExtremes_spec seriesYW none).2.1 ⟨200001, 50, none⟩ (by decide)⟩

end Portfolio
